import Mathlib

/-!
Verification of the JSON scanner and manifest-path extractor of
`cargo-symbols` (`src/main.rs`), as a shallow embedding in Lean.

The scanner (`JsonScanner::next`) is embedded as `scanGo`: the outer
`while let Some(c) = self.cs.next()` loop is mode `.top`, the inner
string-literal loop is mode `.inStr`, and the two-character backslash
branch is mode `.esc`.  The Boolean in the result records whether the
Rust code would have panicked (the `self.cs.next().unwrap()` after a
backslash hitting the end of input).

The extractor (`get_dependencies`) is embedded as `extStep`/`extRun`
over the state tuple `(dp, tp_lvl, pkg, pkg_lst, pkg_lst_itm, mnfst)`,
one `if`-chain per event constructor reproducing the source `match`
arms in their textual order, with first-match semantics and the guard
fall-through behaviour of Rust `match`.
-/

namespace CargoSymbols

/-- Events produced by the scanner, mirroring `enum JsonEvent` in the
source: the four structural tokens, object keys (`Entry`, a string
literal followed by a colon), and plain string literals (`Str`). -/
inductive JsonEvent where
  | EnterObj
  | ExitObj
  | EnterList
  | ExitList
  | Entry (s : List Char)
  | Str (s : List Char)
deriving DecidableEq, Repr

/-- Scanner mode: `.top` is the outer character loop, `.inStr buf` is
inside a string literal with `buf` the characters pushed so far, and
`.esc buf` is just after a backslash inside a literal (the source
pushes the backslash and the following character together). -/
inductive ScanMode where
  | top
  | inStr (buf : List Char)
  | esc (buf : List Char)

/-- After the closing quote the source peeks one character: a colon
makes the literal a key (`Entry`), anything else a value (`Str`). -/
def mkStrEvent (content rest : List Char) : JsonEvent :=
  if rest.head? = some ':' then .Entry content else .Str content

/-- The scanner loop.  Returns the full event sequence together with a
flag that is `true` exactly when the Rust scanner would panic: the
input ends immediately after a backslash inside a string literal, so
`self.cs.next().unwrap()` unwraps `None`.  An input that ends inside a
literal otherwise just ends the sequence (`return None`). -/
def scanGo : ScanMode → List Char → List JsonEvent × Bool
  | .top, [] => ([], false)
  | .top, c :: rest =>
    if c = '{' then
      let r := scanGo .top rest; (.EnterObj :: r.1, r.2)
    else if c = '}' then
      let r := scanGo .top rest; (.ExitObj :: r.1, r.2)
    else if c = '[' then
      let r := scanGo .top rest; (.EnterList :: r.1, r.2)
    else if c = ']' then
      let r := scanGo .top rest; (.ExitList :: r.1, r.2)
    else if c = '"' then
      scanGo (.inStr []) rest
    else
      scanGo .top rest
  | .inStr _, [] => ([], false)
  | .inStr buf, c :: rest =>
    if c = '\\' then
      scanGo (.esc buf) rest
    else if c = '"' then
      let r := scanGo .top rest
      (mkStrEvent buf rest :: r.1, r.2)
    else
      scanGo (.inStr (buf ++ [c])) rest
  | .esc _, [] => ([], true)
  | .esc buf, c :: rest => scanGo (.inStr (buf ++ ['\\', c])) rest

/-- Scan a whole buffer from the initial mode. -/
def scan (l : List Char) : List JsonEvent × Bool := scanGo .top l

/-- The extractor's working state, mirroring the local variables of
`get_dependencies`: depth `dp` (an `i32` in the source, so an `Int`
here), the five Booleans, the accumulated result vector, and a flag
recording that the `break` arm has run. -/
structure ExtState where
  dp : Int
  tp_lvl : Bool
  pkg : Bool
  pkg_lst : Bool
  pkg_lst_itm : Bool
  mnfst : Bool
  deps : List (List Char)
  stopped : Bool
deriving DecidableEq, Repr

def packagesKey : List Char := "packages".toList

def manifestKey : List Char := "manifest_path".toList

/-- One step of the extractor's `match` on
`(dp, tp_lvl, pkg, pkg_lst, pkg_lst_itm, mnfst, event)`.  Each event
constructor gets the source's arms in their textual order; a failed
pattern guard (the `if e == "..."` guards) falls through to the later
arms exactly as in Rust. -/
def extStep (s : ExtState) (e : JsonEvent) : ExtState :=
  if s.stopped = true then s else
  match e with
  | .EnterObj =>
    if s.dp = 0 ∧ s.tp_lvl = false then
      { s with dp := s.dp + 1, tp_lvl := true }
    else if s.dp = 2 ∧ s.tp_lvl = true ∧ s.pkg = true ∧ s.pkg_lst = true ∧
        s.pkg_lst_itm = false then
      { s with dp := s.dp + 1, pkg_lst_itm := true }
    else if s.dp = 3 ∧ s.tp_lvl = true ∧ s.pkg = true ∧ s.pkg_lst = true ∧
        s.pkg_lst_itm = true ∧ s.mnfst = true then
      { s with mnfst := false }
    else
      { s with dp := s.dp + 1 }
  | .EnterList =>
    if s.dp = 1 ∧ s.tp_lvl = true ∧ s.pkg = true ∧ s.pkg_lst = false then
      { s with dp := s.dp + 1, pkg_lst := true }
    else if s.dp = 3 ∧ s.tp_lvl = true ∧ s.pkg = true ∧ s.pkg_lst = true ∧
        s.pkg_lst_itm = true ∧ s.mnfst = true then
      { s with mnfst := false }
    else
      { s with dp := s.dp + 1 }
  | .ExitObj =>
    if s.dp = 3 ∧ s.tp_lvl = true ∧ s.pkg = true ∧ s.pkg_lst = true ∧
        s.pkg_lst_itm = true ∧ s.mnfst = true then
      { s with mnfst := false }
    else if s.dp = 3 ∧ s.tp_lvl = true ∧ s.pkg = true ∧ s.pkg_lst = true then
      { s with dp := s.dp - 1, pkg_lst_itm := false }
    else
      { s with dp := s.dp - 1 }
  | .ExitList =>
    if s.dp = 3 ∧ s.tp_lvl = true ∧ s.pkg = true ∧ s.pkg_lst = true ∧
        s.pkg_lst_itm = true ∧ s.mnfst = true then
      { s with mnfst := false }
    else if s.dp = 2 ∧ s.tp_lvl = true ∧ s.pkg = true then
      { s with dp := s.dp - 1, pkg := false, pkg_lst := false, stopped := true }
    else
      { s with dp := s.dp - 1 }
  | .Entry k =>
    if s.dp = 1 ∧ s.tp_lvl = true ∧ s.pkg = false ∧ k = packagesKey then
      { s with pkg := true }
    else if s.dp = 3 ∧ s.tp_lvl = true ∧ s.pkg = true ∧ s.pkg_lst = true ∧
        s.pkg_lst_itm = true ∧ k = manifestKey then
      { s with mnfst := true }
    else if s.dp = 3 ∧ s.tp_lvl = true ∧ s.pkg = true ∧ s.pkg_lst = true ∧
        s.pkg_lst_itm = true ∧ s.mnfst = true then
      { s with mnfst := false }
    else s
  | .Str path =>
    if s.dp = 3 ∧ s.tp_lvl = true ∧ s.pkg = true ∧ s.pkg_lst = true ∧
        s.pkg_lst_itm = true ∧ s.mnfst = true then
      { s with deps := s.deps ++ [path], mnfst := false }
    else s

/-- Run the extractor loop over an event list; once `stopped` is set by
the `break` arm, every later event is ignored. -/
def extRun (s : ExtState) (es : List JsonEvent) : ExtState := es.foldl extStep s

/-- Fresh state at the top of `get_dependencies`. -/
def initState : ExtState := ⟨0, false, false, false, false, false, [], false⟩

/-- The extraction routine: scan the buffer, run the extraction loop,
and return the collected manifest paths.  The result is `none` when
the run panics: the scanner's backslash `unwrap` fires and the loop
had not already broken out of the (lazy) event stream. -/
def get_dependencies (metadata : List Char) : Option (List (List Char)) :=
  let r := scan metadata
  let s := extRun initState r.1
  if r.2 = true ∧ s.stopped = false then none else some s.deps

/-- Number of events the loop actually processes (each one triggers the
debug `println!` at the top of the loop body). -/
def consumedCount : ExtState → List JsonEvent → Nat
  | _, [] => 0
  | s, e :: es =>
    if s.stopped = true then 0 else 1 + consumedCount (extStep s e) es

/-- Number of lines `real_main` writes to standard output on a
non-panicking run: one debug line per processed event, two extra lines
printed by the `break` arm, and one line per extracted dependency. -/
def stdoutLineCount (l : List Char) : Nat :=
  let es := (scan l).1
  let s := extRun initState es
  consumedCount initState es + (if s.stopped = true then 2 else 0) + s.deps.length

/-- Exit code of `real_main` given an already-acquired metadata buffer:
`Ok(0)` whenever `get_dependencies` returns, `none` when it panics. -/
def realMainExit (metadata : List Char) : Option Int :=
  match get_dependencies metadata with
  | some _ => some 0
  | none => none

/-- Depth contribution of one event: +1 for the two enter tokens, -1
for the two exit tokens, 0 for keys and string values. -/
def structDelta : JsonEvent → Int
  | .EnterObj => 1
  | .EnterList => 1
  | .ExitObj => -1
  | .ExitList => -1
  | .Entry _ => 0
  | .Str _ => 0

/-- Net depth of an event sequence. -/
def netDepth (es : List JsonEvent) : Int := (es.map structDelta).sum

/-- The condition of the "awaiting a manifest value" arms of the source
`match` (arms at depth 3 with every flag set): the key
`"manifest_path"` has just been seen inside an array-item object. -/
def awaitingState (s : ExtState) : Prop :=
  s.dp = 3 ∧ s.tp_lvl = true ∧ s.pkg = true ∧ s.pkg_lst = true ∧
    s.pkg_lst_itm = true ∧ s.mnfst = true

instance (s : ExtState) : Decidable (awaitingState s) := by
  unfold awaitingState; infer_instance

/-!
A model of the JSON documents the program is specified against: string
literals carry their raw (already escaped) content, `atom` stands for
any token the scanner is blind to (numbers, booleans, `null`), and
objects and arrays carry their members in document order.  Documents
are rendered back to text by `serializeV` and well-formedness
(`wfV`) requires string contents to close properly under the
scanner's raw-slice rule and atoms to contain no structural
characters.
-/

mutual
inductive JVal where
  | jstr (s : List Char)
  | atom (s : List Char)
  | obj (fields : JFields)
  | arr (elems : JElems)
deriving DecidableEq
inductive JFields where
  | fnil
  | fcons (key : List Char) (value : JVal) (rest : JFields)
deriving DecidableEq
inductive JElems where
  | enil
  | econs (head : JVal) (rest : JElems)
deriving DecidableEq
end

mutual
def serializeV : JVal → List Char
  | .jstr s => '"' :: s ++ ['"']
  | .atom s => s
  | .obj fs => '{' :: serializeF fs ++ ['}']
  | .arr es => '[' :: serializeE es ++ [']']
def serializeF : JFields → List Char
  | .fnil => []
  | .fcons k v rest =>
    '"' :: k ++ '"' :: ':' :: serializeV v ++
      (match rest with | .fnil => [] | .fcons _ _ _ => [',']) ++ serializeF rest
def serializeE : JElems → List Char
  | .enil => []
  | .econs v rest =>
    serializeV v ++ (match rest with | .enil => [] | .econs _ _ => [',']) ++ serializeE rest
end

/-!
`eventsV` is the event sequence the scanner produces for one
serialized value (assuming it is not followed by a colon, which never
happens to a value inside a serialized document).
-/

mutual
def eventsV : JVal → List JsonEvent
  | .jstr s => [.Str s]
  | .atom _ => []
  | .obj fs => .EnterObj :: eventsF fs ++ [.ExitObj]
  | .arr es => .EnterList :: eventsE es ++ [.ExitList]
def eventsF : JFields → List JsonEvent
  | .fnil => []
  | .fcons k v rest => .Entry k :: eventsV v ++ eventsF rest
def eventsE : JElems → List JsonEvent
  | .enil => []
  | .econs v rest => eventsV v ++ eventsE rest
end

/-- Raw string content that the scanner's literal loop consumes without
closing the literal: no bare quote, and no trailing lone backslash. -/
def validRaw : List Char → Bool
  | [] => true
  | c :: rest =>
    if c = '"' then false
    else if c = '\\' then
      match rest with
      | [] => false
      | _ :: rest2 => validRaw rest2
    else validRaw rest

/-- Atom text must avoid the five characters the scanner reacts to. -/
def noSpecial (s : List Char) : Bool :=
  s.all fun c => decide (c ≠ '{' ∧ c ≠ '}' ∧ c ≠ '[' ∧ c ≠ ']' ∧ c ≠ '"')

mutual
def wfV : JVal → Bool
  | .jstr s => validRaw s
  | .atom s => noSpecial s
  | .obj fs => wfF fs
  | .arr es => wfE es
def wfF : JFields → Bool
  | .fnil => true
  | .fcons k v rest => validRaw k && wfV v && wfF rest
def wfE : JElems → Bool
  | .enil => true
  | .econs v rest => wfV v && wfE rest
end

/-- A string value peeks at the character after its closing quote, so
its decomposition lemma needs that character not to be a colon; the
other value forms never peek past their own text. -/
def strHeadOk : JVal → List Char → Bool
  | .jstr _, rest => !(rest.head? == some ':')
  | _, _ => true

def appF : JFields → JFields → JFields
  | .fnil, gs => gs
  | .fcons k v rest, gs => .fcons k v (appF rest gs)

/-- No field in the list has the key `"packages"`. -/
def keysNoPkg : JFields → Bool
  | .fnil => true
  | .fcons k _ rest => !(k == packagesKey) && keysNoPkg rest

/-- Whether a value is a plain string literal. -/
def isJstr : JVal → Bool
  | .jstr _ => true
  | .atom _ => false
  | .obj _ => false
  | .arr _ => false

/-- The string content of a value, as a singleton list (empty for
non-strings). -/
def jstrVal : JVal → List (List Char)
  | .jstr s => [s]
  | .atom _ => []
  | .obj _ => []
  | .arr _ => []

/-- Shape of one element of the `packages` array (the §6 contract):
any field whose key is `"manifest_path"` holds a plain string. -/
def itemFieldsOk : JFields → Bool
  | .fnil => true
  | .fcons k v rest =>
    (if k == manifestKey then isJstr v else true) && itemFieldsOk rest

/-- Whether a value is an object of the §6 package shape. -/
def itemOk1 : JVal → Bool
  | .jstr _ => false
  | .atom _ => false
  | .obj fs => itemFieldsOk fs
  | .arr _ => false

/-- Every element of the `packages` array is an object of the §6
shape. -/
def itemsOk : JElems → Bool
  | .enil => true
  | .econs v rest => itemOk1 v && itemsOk rest

/-- The `manifest_path` string values of one package object, in field
order. -/
def fieldPaths : JFields → List (List Char)
  | .fnil => []
  | .fcons k v rest =>
    (if k == manifestKey then jstrVal v else []) ++ fieldPaths rest

/-- The `manifest_path` string values found in one array element (an
object's field paths; nothing for a non-object). -/
def itemPaths1 : JVal → List (List Char)
  | .jstr _ => []
  | .atom _ => []
  | .obj fs => fieldPaths fs
  | .arr _ => []

/-- The `manifest_path` string values of the whole `packages` array,
in document order, duplicates preserved. -/
def itemPaths : JElems → List (List Char)
  | .enil => []
  | .econs v rest => itemPaths1 v ++ itemPaths rest

/-- A document of the §6 shape: a root object with some fields before
the `packages` key (none of them named `"packages"`), the `packages`
array itself, and arbitrary fields after it. -/
def shapedDoc (pre : JFields) (items : JElems) (post : JFields) : JVal :=
  .obj (appF pre (.fcons packagesKey (.arr items) post))

/-- Documents with no top-level `"packages"` key (claim C9); a root
that is not an object trivially qualifies. -/
def rootNoPkg : JVal → Bool
  | .obj fs => keysNoPkg fs
  | _ => true

/-- The one-package document whose single `manifest_path` value is the
raw string `s` (claim C7). -/
def mpDoc (s : List Char) : JVal :=
  .obj (.fcons packagesKey
    (.arr (.econs (.obj (.fcons manifestKey (.jstr s) .fnil)) .enil)) .fnil)


/-- Concrete pre-`packages` fields used by witnesses. -/
def preW : JFields := .fcons "name".toList (.jstr "cargo-symbols".toList) .fnil

/-- Concrete package array used by witnesses: two packages, the first
with an extra numeric field. -/
def itemsW : JElems :=
  .econs (.obj (.fcons manifestKey (.jstr "/a/Cargo.toml".toList)
    (.fcons "extra".toList (.atom "7".toList) .fnil)))
  (.econs (.obj (.fcons manifestKey (.jstr "/b/Cargo.toml".toList) .fnil)) .enil)

/-- Concrete post-`packages` fields used by witnesses. -/
def postW : JFields := .fcons "meta".toList (.obj .fnil) .fnil

/-- The two-element package array of claim C3's counterexample: the
first element's `manifest_path` value is a nested (empty) object, the
second a plain string. -/
def itemsC3 : JElems :=
  .econs (.obj (.fcons manifestKey (.obj .fnil) .fnil))
  (.econs (.obj (.fcons manifestKey (.jstr "/x".toList) .fnil)) .enil)


theorem scan_top_openObj (l : List Char) :
    scanGo .top ('{' :: l) = (.EnterObj :: (scanGo .top l).1, (scanGo .top l).2) := rfl

theorem scan_top_closeObj (l : List Char) :
    scanGo .top ('}' :: l) = (.ExitObj :: (scanGo .top l).1, (scanGo .top l).2) := rfl

theorem scan_top_openList (l : List Char) :
    scanGo .top ('[' :: l) = (.EnterList :: (scanGo .top l).1, (scanGo .top l).2) := rfl

theorem scan_top_closeList (l : List Char) :
    scanGo .top (']' :: l) = (.ExitList :: (scanGo .top l).1, (scanGo .top l).2) := rfl

theorem scan_top_quote (l : List Char) :
    scanGo .top ('"' :: l) = scanGo (.inStr []) l := rfl

theorem scan_top_colon (l : List Char) : scanGo .top (':' :: l) = scanGo .top l := rfl

theorem scan_top_comma (l : List Char) : scanGo .top (',' :: l) = scanGo .top l := rfl

theorem scan_top_other (c : Char) (l : List Char) (h1 : c ≠ '{') (h2 : c ≠ '}')
    (h3 : c ≠ '[') (h4 : c ≠ ']') (h5 : c ≠ '"') :
    scanGo .top (c :: l) = scanGo .top l := by
  rw [show scanGo .top (c :: l)
      = (if c = '{' then (.EnterObj :: (scanGo .top l).1, (scanGo .top l).2)
         else if c = '}' then (.ExitObj :: (scanGo .top l).1, (scanGo .top l).2)
         else if c = '[' then (.EnterList :: (scanGo .top l).1, (scanGo .top l).2)
         else if c = ']' then (.ExitList :: (scanGo .top l).1, (scanGo .top l).2)
         else if c = '"' then scanGo (.inStr []) l
         else scanGo .top l) from rfl,
    if_neg h1, if_neg h2, if_neg h3, if_neg h4, if_neg h5]

theorem scan_inStr_backslash (buf : List Char) (d : Char) (l : List Char) :
    scanGo (.inStr buf) ('\\' :: d :: l) = scanGo (.inStr (buf ++ ['\\', d])) l := rfl

theorem scan_inStr_closeQuote (buf l : List Char) :
    scanGo (.inStr buf) ('"' :: l)
      = (mkStrEvent buf l :: (scanGo .top l).1, (scanGo .top l).2) := rfl

theorem scan_inStr_other (buf : List Char) (c : Char) (l : List Char)
    (h1 : c ≠ '\\') (h2 : c ≠ '"') :
    scanGo (.inStr buf) (c :: l) = scanGo (.inStr (buf ++ [c])) l := by
  rw [show scanGo (.inStr buf) (c :: l)
      = (if c = '\\' then scanGo (.esc buf) l
         else if c = '"' then (mkStrEvent buf l :: (scanGo .top l).1, (scanGo .top l).2)
         else scanGo (.inStr (buf ++ [c])) l) from rfl,
    if_neg h1, if_neg h2]

theorem mkStrEvent_colon (content l : List Char) :
    mkStrEvent content (':' :: l) = .Entry content := rfl

theorem mkStrEvent_notColon (content l : List Char) (h : l.head? ≠ some ':') :
    mkStrEvent content l = .Str content := by
  simp [mkStrEvent, h]

theorem validRaw_quote (l : List Char) : validRaw ('"' :: l) = false := by
  rw [validRaw.eq_def]
  simp

theorem validRaw_backslash_nil : validRaw ['\\'] = false := rfl

theorem validRaw_backslash_cons (d : Char) (l : List Char) :
    validRaw ('\\' :: d :: l) = validRaw l := rfl

theorem validRaw_other_cons (c : Char) (l : List Char) (h1 : c ≠ '"') (h2 : c ≠ '\\') :
    validRaw (c :: l) = validRaw l := by
  rw [validRaw.eq_def]
  simp [h1, h2]

/-- Inside a literal, raw-valid content is consumed verbatim up to the
closing quote, and the emitted event carries it un-decoded. -/
theorem scanGo_inStr_close (s : List Char) (h : validRaw s = true) :
    ∀ (buf rest : List Char),
      scanGo (.inStr buf) (s ++ '"' :: rest)
        = (mkStrEvent (buf ++ s) rest :: (scanGo .top rest).1, (scanGo .top rest).2) := by
  induction s using validRaw.induct with
  | case1 =>
      intro buf rest
      simpa using scan_inStr_closeQuote buf rest
  | case2 rest2 => rw [validRaw_quote] at h; exact absurd h (by simp)
  | case3 hc => rw [validRaw_backslash_nil] at h; exact absurd h (by simp)
  | case4 d rest2 hc ih =>
      intro buf rest
      rw [validRaw_backslash_cons] at h
      have step := scan_inStr_backslash buf d (rest2 ++ '"' :: rest)
      simp only [List.cons_append] at step ⊢
      rw [step, ih h (buf ++ ['\\', d]) rest]
      simp [List.append_assoc]
  | case5 c rest2 hq hb ih =>
      intro buf rest
      rw [validRaw_other_cons c rest2 hq hb] at h
      have step := scan_inStr_other buf c (rest2 ++ '"' :: rest) hb hq
      simp only [List.cons_append] at step ⊢
      rw [step, ih h (buf ++ [c]) rest]
      simp [List.append_assoc]


/-- Characters the scanner is blind to are skipped without an event. -/
theorem scanGo_top_skip (s : List Char) (h : noSpecial s = true) (rest : List Char) :
    scanGo .top (s ++ rest) = scanGo .top rest := by
  induction s with
  | nil => simp
  | cons c s' ih =>
      rw [noSpecial, List.all_cons] at h
      simp only [Bool.and_eq_true, decide_eq_true_eq] at h
      obtain ⟨⟨h1, h2, h3, h4, h5⟩, hrest⟩ := h
      rw [List.cons_append, scan_top_other c _ h1 h2 h3 h4 h5]
      exact ih hrest

/-- An unterminated literal whose pending content is raw-valid makes
the scanner end the sequence silently. -/
theorem scanGo_inStr_unterminated (s : List Char) (h : validRaw s = true) :
    ∀ buf, scanGo (.inStr buf) s = ([], false) := by
  induction s using validRaw.induct with
  | case1 => intro buf; rfl
  | case2 rest2 => rw [validRaw_quote] at h; exact absurd h (by simp)
  | case3 hc => rw [validRaw_backslash_nil] at h; exact absurd h (by simp)
  | case4 d rest2 hc ih =>
      intro buf
      rw [validRaw_backslash_cons] at h
      rw [scan_inStr_backslash]
      exact ih h _
  | case5 c rest2 hq hb ih =>
      intro buf
      rw [validRaw_other_cons c rest2 hq hb] at h
      rw [scan_inStr_other buf c rest2 hb hq]
      exact ih h _

/-- An unterminated literal whose text ends right after a backslash
makes the scanner panic (the `unwrap` on `None`). -/
theorem scanGo_inStr_pendingEsc (s : List Char) (h : validRaw s = true) :
    ∀ buf, scanGo (.inStr buf) (s ++ ['\\']) = ([], true) := by
  induction s using validRaw.induct with
  | case1 => intro buf; rfl
  | case2 rest2 => rw [validRaw_quote] at h; exact absurd h (by simp)
  | case3 hc => rw [validRaw_backslash_nil] at h; exact absurd h (by simp)
  | case4 d rest2 hc ih =>
      intro buf
      rw [validRaw_backslash_cons] at h
      simp only [List.cons_append]
      rw [scan_inStr_backslash]
      exact ih h _
  | case5 c rest2 hq hb ih =>
      intro buf
      rw [validRaw_other_cons c rest2 hq hb] at h
      simp only [List.cons_append]
      rw [scan_inStr_other buf c _ hb hq]
      exact ih h _

theorem strHeadOk_cons (v : JVal) (c : Char) (rest : List Char) (h : c ≠ ':') :
    strHeadOk v (c :: rest) = true := by
  cases v <;> simp [strHeadOk, h]

mutual
/-- Scanning a serialized well-formed value followed by anything that
does not start with a colon yields exactly the value's events followed
by the events of the remainder. -/
theorem scanV_dec : ∀ (v : JVal) (rest : List Char), wfV v = true → strHeadOk v rest = true →
    scanGo .top (serializeV v ++ rest)
      = (eventsV v ++ (scanGo .top rest).1, (scanGo .top rest).2)
  | .jstr s, rest, h1, h2 => by
      rw [wfV] at h1
      rw [strHeadOk] at h2
      simp only [Bool.not_eq_true', beq_eq_false_iff_ne, ne_eq] at h2
      simp only [serializeV, eventsV, List.cons_append, List.append_assoc,
        List.singleton_append, List.nil_append]
      rw [scan_top_quote, scanGo_inStr_close s h1 [] rest]
      simp [mkStrEvent_notColon s rest h2]
  | .atom s, rest, h1, _ => by
      rw [wfV] at h1
      simp only [serializeV, eventsV, List.nil_append]
      rw [scanGo_top_skip s h1 rest]
  | .obj fs, rest, h1, _ => by
      rw [wfV] at h1
      simp only [serializeV, eventsV, List.cons_append, List.append_assoc,
        List.singleton_append, List.nil_append]
      rw [scan_top_openObj, scanF_dec fs rest h1]
  | .arr es, rest, h1, _ => by
      rw [wfV] at h1
      simp only [serializeV, eventsV, List.cons_append, List.append_assoc,
        List.singleton_append, List.nil_append]
      rw [scan_top_openList, scanE_dec es rest h1]

/-- Scanning serialized fields followed by the closing brace. -/
theorem scanF_dec : ∀ (fs : JFields) (rest : List Char), wfF fs = true →
    scanGo .top (serializeF fs ++ '}' :: rest)
      = (eventsF fs ++ .ExitObj :: (scanGo .top rest).1, (scanGo .top rest).2)
  | .fnil, rest, _ => by
      simp only [serializeF, eventsF, List.nil_append]
      rw [scan_top_closeObj]
  | .fcons k v rest', rest, h => by
      rw [wfF] at h
      simp only [Bool.and_eq_true] at h
      obtain ⟨⟨hk, hv⟩, hrest⟩ := h
      simp only [serializeF, eventsF, List.cons_append, List.append_assoc]
      rw [scan_top_quote, scanGo_inStr_close k hk []]
      simp only [List.nil_append, mkStrEvent_colon, List.cons_append]
      rw [scan_top_colon]
      cases rest' with
      | fnil =>
          simp only [List.nil_append, serializeF, List.append_nil]
          rw [scanV_dec v ('}' :: rest) hv (strHeadOk_cons v '}' rest (by decide))]
          rw [scan_top_closeObj]
          simp [eventsF]
      | fcons k2 v2 rest2 =>
          simp only [List.singleton_append, List.cons_append, List.nil_append]
          rw [scanV_dec v (',' :: (serializeF (.fcons k2 v2 rest2) ++ '}' :: rest)) hv
            (strHeadOk_cons v ',' _ (by decide))]
          rw [scan_top_comma, scanF_dec (.fcons k2 v2 rest2) rest hrest]

/-- Scanning serialized array elements followed by the closing
bracket. -/
theorem scanE_dec : ∀ (es : JElems) (rest : List Char), wfE es = true →
    scanGo .top (serializeE es ++ ']' :: rest)
      = (eventsE es ++ .ExitList :: (scanGo .top rest).1, (scanGo .top rest).2)
  | .enil, rest, _ => by
      simp only [serializeE, eventsE, List.nil_append]
      rw [scan_top_closeList]
  | .econs v rest', rest, h => by
      rw [wfE] at h
      simp only [Bool.and_eq_true] at h
      obtain ⟨hv, hrest⟩ := h
      simp only [serializeE, eventsE, List.append_assoc]
      cases rest' with
      | enil =>
          simp only [List.nil_append, serializeE, List.append_nil]
          rw [scanV_dec v (']' :: rest) hv (strHeadOk_cons v ']' rest (by decide))]
          rw [scan_top_closeList]
          simp [eventsE]
      | econs v2 rest2 =>
          simp only [List.singleton_append, List.cons_append, List.nil_append]
          rw [scanV_dec v (',' :: (serializeE (.econs v2 rest2) ++ ']' :: rest)) hv
            (strHeadOk_cons v ',' _ (by decide))]
          rw [scan_top_comma, scanE_dec (.econs v2 rest2) rest hrest]
end


theorem extStep_stop (s : ExtState) (e : JsonEvent) (h : s.stopped = true) :
    extStep s e = s := by
  simp [extStep, h]

theorem extRun_nil (s : ExtState) : extRun s [] = s := rfl

theorem extRun_cons (s : ExtState) (e : JsonEvent) (es : List JsonEvent) :
    extRun s (e :: es) = extRun (extStep s e) es := rfl

theorem extRun_append (s : ExtState) (a b : List JsonEvent) :
    extRun s (a ++ b) = extRun (extRun s a) b :=
  List.foldl_append extStep s a b

/-- Once the break arm has run, the rest of the event stream is
ignored. -/
theorem extRun_stopped (s : ExtState) (es : List JsonEvent) (h : s.stopped = true) :
    extRun s es = s := by
  induction es with
  | nil => rfl
  | cons e es ih => rw [extRun_cons, extStep_stop s e h]; exact ih

/-!
Transparent-zone step lemmas: while the awaiting-value flag is clear
and the state is away from the shape-sensitive depths (depth at least
1, and either `pkg` is still unset or depth at least 3), every event
of a nested value takes the default arm of the source `match` — pure
depth bookkeeping for structural tokens, a no-op for keys and strings.
-/

theorem tzone_enterObj (s : ExtState) (hstop : s.stopped = false) (hmn : s.mnfst = false)
    (hdp : 1 ≤ s.dp) (hz : s.pkg = false ∨ 3 ≤ s.dp) :
    extStep s .EnterObj = { s with dp := s.dp + 1 } := by
  simp only [extStep, hstop]
  rw [if_neg (by simp)]
  rw [if_neg (by rintro ⟨h1, _⟩; omega)]
  rw [if_neg ?h2]
  rw [if_neg (by rw [hmn]; rintro ⟨_, _, _, _, _, h⟩; exact absurd h (by simp))]
  case h2 =>
    rcases hz with hpf | hdp3
    · rw [hpf]; rintro ⟨_, _, h, _⟩; exact absurd h (by simp)
    · rintro ⟨h1, _⟩; omega

theorem tzone_enterList (s : ExtState) (hstop : s.stopped = false) (hmn : s.mnfst = false)
    (hdp : 1 ≤ s.dp) (hz : s.pkg = false ∨ 3 ≤ s.dp) :
    extStep s .EnterList = { s with dp := s.dp + 1 } := by
  simp only [extStep, hstop]
  rw [if_neg (by simp)]
  rw [if_neg ?h1]
  rw [if_neg (by rw [hmn]; rintro ⟨_, _, _, _, _, h⟩; exact absurd h (by simp))]
  case h1 =>
    rcases hz with hpf | hdp3
    · rw [hpf]; rintro ⟨_, _, h, _⟩; exact absurd h (by simp)
    · rintro ⟨h1, _⟩; omega

theorem tzone_exitObj (s : ExtState) (hstop : s.stopped = false) (hmn : s.mnfst = false)
    (hz : s.pkg = false ∨ 4 ≤ s.dp) :
    extStep s .ExitObj = { s with dp := s.dp - 1 } := by
  simp only [extStep, hstop]
  rw [if_neg (by simp)]
  rw [if_neg (by rw [hmn]; rintro ⟨_, _, _, _, _, h⟩; exact absurd h (by simp))]
  rw [if_neg ?h2]
  case h2 =>
    rcases hz with hpf | hdp4
    · rw [hpf]; rintro ⟨_, _, h, _⟩; exact absurd h (by simp)
    · rintro ⟨h1, _⟩; omega

theorem tzone_exitList (s : ExtState) (hstop : s.stopped = false) (hmn : s.mnfst = false)
    (hz : s.pkg = false ∨ 4 ≤ s.dp) :
    extStep s .ExitList = { s with dp := s.dp - 1 } := by
  simp only [extStep, hstop]
  rw [if_neg (by simp)]
  rw [if_neg (by rw [hmn]; rintro ⟨_, _, _, _, _, h⟩; exact absurd h (by simp))]
  rw [if_neg ?h2]
  case h2 =>
    rcases hz with hpf | hdp4
    · rw [hpf]; rintro ⟨_, _, h⟩; exact absurd h (by simp)
    · rintro ⟨h1, _⟩; omega

theorem tzone_entry (s : ExtState) (k : List Char) (hstop : s.stopped = false)
    (hmn : s.mnfst = false) (hdp : 2 ≤ s.dp) (hz : s.pkg = false ∨ 4 ≤ s.dp) :
    extStep s (.Entry k) = s := by
  simp only [extStep, hstop]
  rw [if_neg (by simp)]
  rw [if_neg (by rintro ⟨h1, _⟩; omega)]
  rw [if_neg ?h5]
  rw [if_neg (by rw [hmn]; rintro ⟨_, _, _, _, _, h⟩; exact absurd h (by simp))]
  case h5 =>
    rcases hz with hpf | hdp4
    · rw [hpf]; rintro ⟨_, _, h, _⟩; exact absurd h (by simp)
    · rintro ⟨h1, _⟩; omega

theorem tzone_str (s : ExtState) (str : List Char) (hstop : s.stopped = false)
    (hmn : s.mnfst = false) :
    extStep s (.Str str) = s := by
  simp only [extStep, hstop]
  rw [if_neg (by simp)]
  rw [if_neg (by rw [hmn]; rintro ⟨_, _, _, _, _, h⟩; exact absurd h (by simp))]


mutual
/-- Events of a nested value leave the extractor state unchanged when
the awaiting flag is clear and the state is in the transparent zone. -/
theorem extNoopV : ∀ (v : JVal) (s : ExtState), s.stopped = false → s.mnfst = false →
    1 ≤ s.dp → (s.pkg = false ∨ 3 ≤ s.dp) → extRun s (eventsV v) = s
  | .jstr str, s, hstop, hmn, _, _ => by
      rw [eventsV, extRun_cons, tzone_str s str hstop hmn, extRun_nil]
  | .atom _, s, _, _, _, _ => rfl
  | .obj fs, s, hstop, hmn, hdp, hz => by
      have h1 : extRun s (.EnterObj :: eventsF fs) = { s with dp := s.dp + 1 } := by
        rw [extRun_cons, tzone_enterObj s hstop hmn hdp hz]
        exact extNoopF fs { s with dp := s.dp + 1 } hstop hmn
          (by simp; omega) (hz.imp (fun h => h) (fun h => by simp; omega))
      rw [eventsV, extRun_append, h1, extRun_cons, extRun_nil]
      rw [tzone_exitObj { s with dp := s.dp + 1 } hstop hmn
        (hz.imp (fun h => h) (fun h => by simp; omega))]
      have h2 : s.dp + 1 - 1 = s.dp := by omega
      simp [h2]
  | .arr es, s, hstop, hmn, hdp, hz => by
      have h1 : extRun s (.EnterList :: eventsE es) = { s with dp := s.dp + 1 } := by
        rw [extRun_cons, tzone_enterList s hstop hmn hdp hz]
        exact extNoopE es { s with dp := s.dp + 1 } hstop hmn
          (by simp; omega) (hz.imp (fun h => h) (fun h => by simp; omega))
      rw [eventsV, extRun_append, h1, extRun_cons, extRun_nil]
      rw [tzone_exitList { s with dp := s.dp + 1 } hstop hmn
        (hz.imp (fun h => h) (fun h => by simp; omega))]
      have h2 : s.dp + 1 - 1 = s.dp := by omega
      simp [h2]

/-- Events of nested object fields leave the state unchanged at depth
at least 2 (so the root-level `"packages"` arm cannot fire) with the
capture arms out of reach. -/
theorem extNoopF : ∀ (fs : JFields) (s : ExtState), s.stopped = false → s.mnfst = false →
    2 ≤ s.dp → (s.pkg = false ∨ 4 ≤ s.dp) → extRun s (eventsF fs) = s
  | .fnil, s, _, _, _, _ => rfl
  | .fcons k v rest, s, hstop, hmn, hdp, hz => by
      have h1 : extRun s (.Entry k :: eventsV v) = s := by
        rw [extRun_cons, tzone_entry s k hstop hmn hdp hz]
        exact extNoopV v s hstop hmn (by omega)
          (hz.imp (fun h => h) (fun h => by omega))
      rw [eventsF, extRun_append, h1]
      exact extNoopF rest s hstop hmn hdp hz

/-- Events of nested array elements leave the state unchanged in the
transparent zone. -/
theorem extNoopE : ∀ (es : JElems) (s : ExtState), s.stopped = false → s.mnfst = false →
    1 ≤ s.dp → (s.pkg = false ∨ 3 ≤ s.dp) → extRun s (eventsE es) = s
  | .enil, s, _, _, _, _ => rfl
  | .econs v rest, s, hstop, hmn, hdp, hz => by
      rw [eventsE, extRun_append]
      rw [extNoopV v s hstop hmn hdp hz]
      exact extNoopE rest s hstop hmn hdp hz
end


theorem eventsF_appF : ∀ (a b : JFields), eventsF (appF a b) = eventsF a ++ eventsF b
  | .fnil, b => by simp [appF, eventsF]
  | .fcons k v rest, b => by
      rw [appF, eventsF, eventsF, eventsF_appF rest b, List.append_assoc]

theorem entry_step_dp1_other (k : List Char) (hk : k ≠ packagesKey) :
    extStep ⟨1, true, false, false, false, false, [], false⟩ (.Entry k)
      = ⟨1, true, false, false, false, false, [], false⟩ := by
  simp only [extStep]
  rw [if_neg (by simp)]
  rw [if_neg (fun h => hk h.2.2.2)]
  rw [if_neg (fun h => absurd h.1 (by decide))]
  rw [if_neg (fun h => absurd h.2.2.2.2.2 (by simp))]

theorem entry_step_dp3_other (ds : List (List Char)) (k : List Char) (hk : k ≠ manifestKey) :
    extStep ⟨3, true, true, true, true, false, ds, false⟩ (.Entry k)
      = ⟨3, true, true, true, true, false, ds, false⟩ := by
  simp only [extStep]
  rw [if_neg (by simp)]
  rw [if_neg (fun h => absurd h.1 (by decide))]
  rw [if_neg (fun h => hk h.2.2.2.2.2)]
  rw [if_neg (fun h => absurd h.2.2.2.2.2 (by simp))]

/-- Running the extractor over the fields of one package object at
depth 3 captures exactly the object's `manifest_path` string values. -/
theorem itemFieldsRun : ∀ (fs : JFields) (ds : List (List Char)), itemFieldsOk fs = true →
    extRun ⟨3, true, true, true, true, false, ds, false⟩ (eventsF fs)
      = ⟨3, true, true, true, true, false, ds ++ fieldPaths fs, false⟩
  | .fnil, ds, _ => by simp [eventsF, extRun_nil, fieldPaths]
  | .fcons k v rest, ds, h => by
      rw [itemFieldsOk] at h
      simp only [Bool.and_eq_true] at h
      obtain ⟨hhead, hrest⟩ := h
      by_cases hk : k = manifestKey
      · subst hk
        rw [if_pos (by simp)] at hhead
        cases v with
        | jstr str =>
            rw [eventsF, extRun_append]
            have hinner : extRun ⟨3, true, true, true, true, false, ds, false⟩
                (.Entry manifestKey :: eventsV (.jstr str))
                = ⟨3, true, true, true, true, false, ds ++ [str], false⟩ := rfl
            rw [hinner, itemFieldsRun rest (ds ++ [str]) hrest]
            simp [fieldPaths, jstrVal, List.append_assoc]
        | atom s => rw [isJstr] at hhead; exact absurd hhead (by simp)
        | obj fs2 => rw [isJstr] at hhead; exact absurd hhead (by simp)
        | arr es2 => rw [isJstr] at hhead; exact absurd hhead (by simp)
      · have hkb : (k == manifestKey) = false := by simp [hk]
        rw [eventsF, extRun_append]
        have hinner : extRun ⟨3, true, true, true, true, false, ds, false⟩
            (.Entry k :: eventsV v) = ⟨3, true, true, true, true, false, ds, false⟩ := by
          rw [extRun_cons, entry_step_dp3_other ds k hk]
          exact extNoopV v _ rfl rfl (by simp) (Or.inr (by simp))
        rw [hinner, itemFieldsRun rest ds hrest]
        simp [fieldPaths, hkb]

/-- Running the extractor over the elements of the `packages` array at
depth 2 captures the manifest paths of every element, in order. -/
theorem itemsRun : ∀ (es : JElems) (ds : List (List Char)), itemsOk es = true →
    extRun ⟨2, true, true, true, false, false, ds, false⟩ (eventsE es)
      = ⟨2, true, true, true, false, false, ds ++ itemPaths es, false⟩
  | .enil, ds, _ => by simp [eventsE, extRun_nil, itemPaths]
  | .econs v rest, ds, h => by
      rw [itemsOk] at h
      simp only [Bool.and_eq_true] at h
      obtain ⟨hv, hrest⟩ := h
      cases v with
      | jstr s => rw [itemOk1] at hv; exact absurd hv (by simp)
      | atom s => rw [itemOk1] at hv; exact absurd hv (by simp)
      | arr es2 => rw [itemOk1] at hv; exact absurd hv (by simp)
      | obj fs =>
          rw [itemOk1] at hv
          rw [eventsE, eventsV, List.append_assoc, extRun_append, extRun_append]
          have h1 : extRun ⟨2, true, true, true, false, false, ds, false⟩
              (.EnterObj :: eventsF fs)
              = ⟨3, true, true, true, true, false, ds ++ fieldPaths fs, false⟩ := by
            rw [extRun_cons]
            exact itemFieldsRun fs ds hv
          rw [h1]
          have h2 : extRun ⟨3, true, true, true, true, false, ds ++ fieldPaths fs, false⟩
              [.ExitObj] = ⟨2, true, true, true, false, false, ds ++ fieldPaths fs, false⟩ := rfl
          rw [h2, itemsRun rest (ds ++ fieldPaths fs) hrest]
          simp [itemPaths, itemPaths1, List.append_assoc]

/-- Root-object fields whose keys are not `"packages"` leave the
freshly-entered root state unchanged. -/
theorem rootFieldsRun : ∀ (fs : JFields), keysNoPkg fs = true →
    extRun ⟨1, true, false, false, false, false, [], false⟩ (eventsF fs)
      = ⟨1, true, false, false, false, false, [], false⟩
  | .fnil, _ => rfl
  | .fcons k v rest, h => by
      rw [keysNoPkg] at h
      simp only [Bool.and_eq_true, Bool.not_eq_true', beq_eq_false_iff_ne, ne_eq] at h
      obtain ⟨hk, hrest⟩ := h
      rw [eventsF, extRun_append]
      have hinner : extRun ⟨1, true, false, false, false, false, [], false⟩
          (.Entry k :: eventsV v) = ⟨1, true, false, false, false, false, [], false⟩ := by
        rw [extRun_cons, entry_step_dp1_other k hk]
        exact extNoopV v _ rfl rfl (by decide) (Or.inl rfl)
      rw [hinner]
      exact rootFieldsRun rest hrest

/-- The final state of a shaped-document run: the loop breaks on the
bracket that closes the `packages` array, carrying exactly the
manifest paths of the array's elements, and every later event is
ignored. -/
theorem shapedRun (pre : JFields) (items : JElems) (post : JFields) (extra : List JsonEvent)
    (hpre : keysNoPkg pre = true) (hitems : itemsOk items = true) :
    extRun initState (eventsV (shapedDoc pre items post) ++ extra)
      = ⟨1, true, false, false, false, false, itemPaths items, true⟩ := by
  have hstep0 : extStep initState .EnterObj
      = ⟨1, true, false, false, false, false, [], false⟩ := rfl
  have hstep1 : extStep ⟨1, true, false, false, false, false, [], false⟩ (.Entry packagesKey)
      = ⟨1, true, true, false, false, false, [], false⟩ := rfl
  have hstep2 : extStep ⟨1, true, true, false, false, false, [], false⟩ .EnterList
      = ⟨2, true, true, true, false, false, [], false⟩ := rfl
  have hstep3 : extRun ⟨2, true, true, true, false, false, [] ++ itemPaths items, false⟩
      [.ExitList] = ⟨1, true, false, false, false, false, [] ++ itemPaths items, true⟩ := rfl
  have hC : extRun ⟨1, true, true, false, false, false, [], false⟩
      (.EnterList :: eventsE items)
      = ⟨2, true, true, true, false, false, [] ++ itemPaths items, false⟩ := by
    rw [extRun_cons, hstep2]
    exact itemsRun items [] hitems
  have hB : extRun ⟨1, true, false, false, false, false, [], false⟩
      (.Entry packagesKey :: eventsV (.arr items))
      = ⟨1, true, false, false, false, false, itemPaths items, true⟩ := by
    rw [extRun_cons, hstep1, eventsV, extRun_append, hC, hstep3]
    simp
  have hA : extRun initState (.EnterObj :: eventsF (appF pre (.fcons packagesKey (.arr items) post)))
      = ⟨1, true, false, false, false, false, itemPaths items, true⟩ := by
    rw [extRun_cons, hstep0, eventsF_appF, extRun_append, rootFieldsRun pre hpre,
      eventsF, extRun_append, hB, extRun_stopped _ _ rfl]
  rw [shapedDoc, eventsV, List.append_assoc, extRun_append, hA, extRun_stopped _ _ rfl]



theorem get_dependencies_eq (m : List Char) :
    get_dependencies m
      = if (scan m).2 = true ∧ (extRun initState (scan m).1).stopped = false
        then none else some (extRun initState (scan m).1).deps := rfl

/-- When the scanner does not panic, the run's collected paths are
returned. -/
theorem get_dependencies_no_panic (m : List Char) (es : List JsonEvent)
    (hscan : scan m = (es, false)) :
    get_dependencies m = some (extRun initState es).deps := by
  rw [get_dependencies_eq, hscan]
  simp

theorem realMainExit_of_some (m : List Char) (ds : List (List Char))
    (h : get_dependencies m = some ds) : realMainExit m = some 0 := by
  rw [realMainExit, h]

/-- Master lemma: on a shaped document followed by an arbitrary tail,
the loop breaks at the bracket closing the `packages` array and
returns exactly the array's manifest paths, whatever the tail holds. -/
theorem shaped_get_dependencies (pre : JFields) (items : JElems) (post : JFields)
    (t : List Char)
    (hwf : wfV (shapedDoc pre items post) = true)
    (hpre : keysNoPkg pre = true) (hitems : itemsOk items = true) :
    get_dependencies (serializeV (shapedDoc pre items post) ++ t) = some (itemPaths items)
    ∧ (extRun initState (scan (serializeV (shapedDoc pre items post) ++ t)).1).stopped
        = true := by
  have hscan : scan (serializeV (shapedDoc pre items post) ++ t)
      = (eventsV (shapedDoc pre items post) ++ (scanGo .top t).1, (scanGo .top t).2) :=
    scanV_dec (shapedDoc pre items post) t hwf rfl
  have hrun : extRun initState (eventsV (shapedDoc pre items post) ++ (scanGo .top t).1)
      = ⟨1, true, false, false, false, false, itemPaths items, true⟩ :=
    shapedRun pre items post (scanGo .top t).1 hpre hitems
  constructor
  · rw [get_dependencies_eq, hscan]
    simp only [hrun]
    rw [if_neg (fun h => absurd h.2 (by simp))]
  · rw [hscan]
    simp only [hrun]

/-- Events of a whole serialized well-formed document, with nothing
after it. -/
theorem scan_serialize (v : JVal) (hwf : wfV v = true) :
    scan (serializeV v) = (eventsV v, false) := by
  have h := scanV_dec v [] hwf (by cases v <;> simp [strHeadOk])
  rw [show serializeV v ++ [] = serializeV v from List.append_nil _] at h
  rw [show scanGo .top ([] : List Char) = (([] : List JsonEvent), false) from rfl] at h
  simpa [scan] using h

/-- The scanner produces at most one event per input character. -/
theorem scanGo_length : ∀ (mode : ScanMode) (l : List Char),
    (scanGo mode l).1.length ≤ l.length := by
  intro mode l
  induction mode, l using scanGo.induct <;>
    simp_all [scanGo, mkStrEvent] <;> omega

theorem consumedCount_le : ∀ (es : List JsonEvent) (s : ExtState),
    consumedCount s es ≤ es.length
  | [], _ => by simp [consumedCount]
  | e :: es, s => by
      rw [consumedCount]
      split
      · simp
      · have := consumedCount_le es (extStep s e)
        simp only [List.length_cons]
        omega



/-- C1: for every well-formed JSON document shaped as a root object
containing a `"packages"` key whose value is an array of objects (each
`manifest_path` field holding a plain string), `get_dependencies`
returns exactly the list of `manifest_path` string values of the array
elements, in document order, duplicates preserved and escape
sequences left un-decoded (the captured text is the raw literal
content). -/
theorem C1_shaped_extraction (pre : JFields) (items : JElems) (post : JFields)
    (hwf : wfV (shapedDoc pre items post) = true)
    (hpre : keysNoPkg pre = true) (hitems : itemsOk items = true) :
    get_dependencies (serializeV (shapedDoc pre items post)) = some (itemPaths items) := by
  have h := (shaped_get_dependencies pre items post [] hwf hpre hitems).1
  rwa [List.append_nil] at h

/-- Witness for C1 on a concrete two-package document with extra root
fields before and after the `packages` array. -/
theorem C1_shaped_extraction_witness :
    wfV (shapedDoc preW itemsW postW) = true
    ∧ keysNoPkg preW = true
    ∧ itemsOk itemsW = true
    ∧ itemPaths itemsW = ["/a/Cargo.toml".toList, "/b/Cargo.toml".toList]
    ∧ get_dependencies (serializeV (shapedDoc preW itemsW postW))
        = some ["/a/Cargo.toml".toList, "/b/Cargo.toml".toList] :=
  ⟨by decide, by decide, by decide, by decide, by
    rw [C1_shaped_extraction preW itemsW postW (by decide) (by decide) (by decide)]
    decide⟩

/-- C2 counterexample: on the input whose `manifest_path` value is a
nested array, the loop ends not stopped with depth 3 while six
structural events net to 4 (the `EnterList` arriving in the
awaiting-value state only cleared the flag, skipping the depth
increment); and on the input consisting of a lone closing bracket the
depth goes to -1, refuting depth being always at least 0. -/
theorem C2_depth_cex :
    ((extRun initState (scan "\x7b\"packages\":[\x7b\"manifest_path\":[".toList).1).stopped = false
      ∧ (extRun initState (scan "\x7b\"packages\":[\x7b\"manifest_path\":[".toList).1).dp = 3
      ∧ netDepth (scan "\x7b\"packages\":[\x7b\"manifest_path\":[".toList).1 = 4)
    ∧ (extRun initState (scan "]".toList).1).dp = -1 := by decide

/-- C2 amended: every structural event adjusts the depth counter by
exactly its +1 or -1 contribution, except when the extractor is in the
awaiting-value state (depth 3, all flags set, `mnfst` set), in which
case the event only clears the flag and leaves the depth unchanged;
depth is an `i32` and may go negative on unmatched closing tokens. -/
theorem C2_step_depth (s : ExtState) (e : JsonEvent)
    (hstop : s.stopped = false) (hs : structDelta e ≠ 0) :
    (extStep s e).dp = if awaitingState s then s.dp else s.dp + structDelta e := by
  have hsf : ¬(s.stopped = true) := by simp [hstop]
  cases e with
  | Entry k => exact absurd rfl hs
  | Str p => exact absurd rfl hs
  | EnterObj =>
      simp only [extStep, structDelta]
      rw [if_neg hsf]
      by_cases haw : awaitingState s
      · obtain ⟨h3, htp, hpk, hpl, hpi, hmn⟩ := haw
        rw [if_neg (fun h => absurd h.1 (by omega))]
        rw [if_neg (fun h => absurd h.1 (by omega))]
        rw [if_pos ⟨h3, htp, hpk, hpl, hpi, hmn⟩]
        rw [if_pos ⟨h3, htp, hpk, hpl, hpi, hmn⟩]
      · rw [if_neg haw]
        split_ifs with h1 h2 h3
        · simp
        · simp
        · exact absurd h3 haw
        · simp
  | EnterList =>
      simp only [extStep, structDelta]
      rw [if_neg hsf]
      by_cases haw : awaitingState s
      · obtain ⟨h3, htp, hpk, hpl, hpi, hmn⟩ := haw
        rw [if_neg (fun h => absurd h.1 (by omega))]
        rw [if_pos ⟨h3, htp, hpk, hpl, hpi, hmn⟩]
        rw [if_pos ⟨h3, htp, hpk, hpl, hpi, hmn⟩]
      · rw [if_neg haw]
        split_ifs with h1 h2
        · simp
        · exact absurd h2 haw
        · simp
  | ExitObj =>
      simp only [extStep, structDelta]
      rw [if_neg hsf]
      by_cases haw : awaitingState s
      · obtain ⟨h3, htp, hpk, hpl, hpi, hmn⟩ := haw
        rw [if_pos ⟨h3, htp, hpk, hpl, hpi, hmn⟩]
        rw [if_pos ⟨h3, htp, hpk, hpl, hpi, hmn⟩]
      · rw [if_neg haw]
        split_ifs with h1 h2
        · exact absurd h1 haw
        · simp only [ExtState.dp]
          omega
        · simp only [ExtState.dp]
          omega
  | ExitList =>
      simp only [extStep, structDelta]
      rw [if_neg hsf]
      by_cases haw : awaitingState s
      · obtain ⟨h3, htp, hpk, hpl, hpi, hmn⟩ := haw
        rw [if_pos ⟨h3, htp, hpk, hpl, hpi, hmn⟩]
        rw [if_pos ⟨h3, htp, hpk, hpl, hpi, hmn⟩]
      · rw [if_neg haw]
        split_ifs with h1 h2
        · exact absurd h1 haw
        · simp only [ExtState.dp]
          omega
        · simp only [ExtState.dp]
          omega

/-- Witness for the amended C2 at a concrete state and event. -/
theorem C2_step_depth_witness :
    initState.stopped = false ∧ structDelta .EnterObj ≠ 0
    ∧ (extStep initState .EnterObj).dp
        = (if awaitingState initState then initState.dp
           else initState.dp + structDelta .EnterObj) :=
  ⟨rfl, by decide, C2_step_depth initState .EnterObj rfl (by decide)⟩

/-- C3 counterexample: in the two-package document whose first
`manifest_path` value is a nested (empty) object, the later package's
`manifest_path` value `/x` is lost — the run returns no paths at all,
although the document's second element does carry the string `/x`. -/
theorem C3_nested_value_cex :
    get_dependencies (serializeV (shapedDoc .fnil itemsC3 .fnil)) = some []
    ∧ serializeV (shapedDoc .fnil itemsC3 .fnil)
        = "\x7b\"packages\":[\x7b\"manifest_path\":\x7b\x7d\x7d,\x7b\"manifest_path\":\"/x\"\x7d]\x7d".toList
    ∧ itemPaths itemsC3 = ["/x".toList] :=
  ⟨by decide, by decide, by decide⟩

/-- C3 amended: a non-string event arriving in the awaiting-value
state clears the flag and appends nothing (the key is silently
dropped, no error is reported), but extraction does not in general
keep capturing later items: when the clearing event is structural its
depth adjustment is skipped, so later `manifest_path` values may be
missed. -/
theorem C3_silent_drop (s : ExtState) (e : JsonEvent) (hstop : s.stopped = false)
    (haw : awaitingState s) (hstr : ∀ p, e ≠ .Str p) (hmp : e ≠ .Entry manifestKey) :
    (extStep s e).mnfst = false ∧ (extStep s e).deps = s.deps := by
  obtain ⟨h3, htp, hpk, hpl, hpi, hmn⟩ := haw
  have hsf : ¬(s.stopped = true) := by simp [hstop]
  cases e with
  | Str p => exact absurd rfl (hstr p)
  | Entry k =>
      have hk : k ≠ manifestKey := fun h => hmp (by rw [h])
      simp only [extStep]
      rw [if_neg hsf]
      rw [if_neg (fun h => absurd h.1 (by omega))]
      rw [if_neg (fun h => hk h.2.2.2.2.2)]
      rw [if_pos ⟨h3, htp, hpk, hpl, hpi, hmn⟩]
      exact ⟨rfl, rfl⟩
  | EnterObj =>
      simp only [extStep]
      rw [if_neg hsf]
      rw [if_neg (fun h => absurd h.1 (by omega))]
      rw [if_neg (fun h => absurd h.1 (by omega))]
      rw [if_pos ⟨h3, htp, hpk, hpl, hpi, hmn⟩]
      exact ⟨rfl, rfl⟩
  | EnterList =>
      simp only [extStep]
      rw [if_neg hsf]
      rw [if_neg (fun h => absurd h.1 (by omega))]
      rw [if_pos ⟨h3, htp, hpk, hpl, hpi, hmn⟩]
      exact ⟨rfl, rfl⟩
  | ExitObj =>
      simp only [extStep]
      rw [if_neg hsf]
      rw [if_pos ⟨h3, htp, hpk, hpl, hpi, hmn⟩]
      exact ⟨rfl, rfl⟩
  | ExitList =>
      simp only [extStep]
      rw [if_neg hsf]
      rw [if_pos ⟨h3, htp, hpk, hpl, hpi, hmn⟩]
      exact ⟨rfl, rfl⟩

/-- Witness for the amended C3: an `EnterObj` in the awaiting-value
state clears the flag and appends nothing. -/
theorem C3_silent_drop_witness :
    (⟨3, true, true, true, true, true, [], false⟩ : ExtState).stopped = false
    ∧ awaitingState ⟨3, true, true, true, true, true, [], false⟩
    ∧ (extStep ⟨3, true, true, true, true, true, [], false⟩ .EnterObj).mnfst = false
    ∧ (extStep ⟨3, true, true, true, true, true, [], false⟩ .EnterObj).deps = [] := by
  have h := C3_silent_drop ⟨3, true, true, true, true, true, [], false⟩ .EnterObj rfl
    (by decide) (fun p hp => by cases hp) (fun hp => by cases hp)
  exact ⟨rfl, by decide, h.1, h.2⟩

/-- C4: the claim that standard output holds exactly the extracted
strings fails — the loop's debug `println!` prints one line per
processed event plus two more in the break arm, so the input with an
empty `packages` array produces 6 stdout lines, not 0, even though the
returned dependency list is empty (and the exit code is 0). -/
theorem C4_debug_output :
    stdoutLineCount "\x7b\"packages\":[]\x7d".toList = 6
    ∧ get_dependencies "\x7b\"packages\":[]\x7d".toList = some [] := by decide

/-- C5 counterexample: on the two-character input of a quote followed
by a backslash the string literal is never closed, yet the scanner
does not end silently — the `unwrap` on `None` panics (modelled by the
`true` flag). -/
theorem C5_backslash_panic : scan "\"\\".toList = ([], true) := by decide

/-- C5 amended: an unterminated literal makes the scanner end the
event sequence silently unless the buffer ends immediately after a
backslash inside the literal, in which case the scanner panics. -/
theorem C5_unterminated_silent (s : List Char) (h : validRaw s = true) :
    scan ('"' :: s) = ([], false) ∧ scan ('"' :: s ++ ['\\']) = ([], true) := by
  constructor
  · show scanGo .top ('"' :: s) = ([], false)
    rw [scan_top_quote]
    exact scanGo_inStr_unterminated s h []
  · show scanGo .top (('"' :: s) ++ ['\\']) = ([], true)
    rw [List.cons_append, scan_top_quote]
    exact scanGo_inStr_pendingEsc s h []

/-- Witness for the amended C5 on the literal content `ab`. -/
theorem C5_unterminated_silent_witness :
    validRaw "ab".toList = true
    ∧ scan ('"' :: "ab".toList) = ([], false)
    ∧ scan ('"' :: "ab".toList ++ ['\\']) = ([], true) :=
  ⟨by decide, (C5_unterminated_silent "ab".toList (by decide)).1,
    (C5_unterminated_silent "ab".toList (by decide)).2⟩

/-- C6: the run on a shaped document stops on the `ExitList` that
closes the `packages` array, and appending any trailing text
(malformed included) leaves `get_dependencies` unchanged. -/
theorem C6_trailing_garbage (pre : JFields) (items : JElems) (post : JFields) (t : List Char)
    (hwf : wfV (shapedDoc pre items post) = true)
    (hpre : keysNoPkg pre = true) (hitems : itemsOk items = true) :
    (extRun initState (scan (serializeV (shapedDoc pre items post))).1).stopped = true
    ∧ get_dependencies (serializeV (shapedDoc pre items post) ++ t)
        = get_dependencies (serializeV (shapedDoc pre items post)) := by
  have h1 := shaped_get_dependencies pre items post t hwf hpre hitems
  have h2 := shaped_get_dependencies pre items post [] hwf hpre hitems
  rw [List.append_nil] at h2
  exact ⟨h2.2, by rw [h1.1, h2.1]⟩

/-- Witness for C6: a concrete shaped document followed by malformed
trailing text. -/
theorem C6_trailing_garbage_witness :
    wfV (shapedDoc preW itemsW postW) = true
    ∧ (extRun initState (scan (serializeV (shapedDoc preW itemsW postW))).1).stopped = true
    ∧ get_dependencies (serializeV (shapedDoc preW itemsW postW) ++ "]]\x7d\"unclosed".toList)
        = get_dependencies (serializeV (shapedDoc preW itemsW postW)) := by
  have h := C6_trailing_garbage preW itemsW postW "]]\x7d\"unclosed".toList
    (by decide) (by decide) (by decide)
  exact ⟨by decide, h.1, h.2⟩

/-- C7 counterexample: the `manifest_path` value written `"a\"b"` is
captured as the raw text consisting of the four characters `a`, `\`,
`"`, `b` — not five characters as the claim counts it. -/
theorem C7_four_char_capture :
    get_dependencies "\x7b\"packages\":[\x7b\"manifest_path\":\"a\\\"b\"\x7d]\x7d".toList
      = some [['a', '\\', '"', 'b']]
    ∧ ¬(['a', '\\', '"', 'b'] : List Char).length = 5 := by decide

/-- C7 amended: string literals are captured raw — for every raw-valid
content `s` (backslash always followed by a consumed character, no
bare quote), the one-package document whose `manifest_path` is `s`
yields exactly `s`, escape sequences retained un-decoded; the concrete
value written `"a\"b"` is the four-character raw text. -/
theorem C7_raw_capture (s : List Char) (h : validRaw s = true) :
    get_dependencies (serializeV (mpDoc s)) = some [s] := by
  have hpk : validRaw packagesKey = true := by decide
  have hmp : validRaw manifestKey = true := by decide
  have hwf : wfV (shapedDoc .fnil
      (.econs (.obj (.fcons manifestKey (.jstr s) .fnil)) .enil) .fnil) = true := by
    simp [shapedDoc, appF, wfV, wfF, wfE, hpk, hmp, h]
  have hitems : itemsOk (.econs (.obj (.fcons manifestKey (.jstr s) .fnil)) .enil) = true := by
    simp [itemsOk, itemOk1, itemFieldsOk, isJstr]
  have hh := (shaped_get_dependencies .fnil
    (.econs (.obj (.fcons manifestKey (.jstr s) .fnil)) .enil) .fnil [] hwf rfl hitems).1
  rw [List.append_nil] at hh
  rw [show mpDoc s = shapedDoc .fnil
    (.econs (.obj (.fcons manifestKey (.jstr s) .fnil)) .enil) .fnil from rfl]
  rw [hh]
  simp [itemPaths, itemPaths1, fieldPaths, jstrVal]

/-- Witness for the amended C7 at the raw content `a`, `\`, `"`, `b`. -/
theorem C7_raw_capture_witness :
    validRaw ['a', '\\', '"', 'b'] = true
    ∧ serializeV (mpDoc ['a', '\\', '"', 'b'])
        = "\x7b\"packages\":[\x7b\"manifest_path\":\"a\\\"b\"\x7d]\x7d".toList
    ∧ (['a', '\\', '"', 'b'] : List Char).length = 4
    ∧ get_dependencies (serializeV (mpDoc ['a', '\\', '"', 'b'])) = some [['a', '\\', '"', 'b']] :=
  ⟨by decide, by decide, by decide, C7_raw_capture ['a', '\\', '"', 'b'] (by decide)⟩

/-- C8: on the concrete two-package document of scenario 1 the
extraction returns exactly `/a/Cargo.toml` then `/b/Cargo.toml`. -/
theorem C8_scenario1 :
    get_dependencies "\x7b\"packages\":[\x7b\"manifest_path\":\"/a/Cargo.toml\"\x7d,\x7b\"manifest_path\":\"/b/Cargo.toml\"\x7d]\x7d".toList
      = some ["/a/Cargo.toml".toList, "/b/Cargo.toml".toList] := by decide

/-- C9: every well-formed document with no top-level `"packages"` key
(a non-object root included) yields the empty list without failure,
and the run exits with code 0. -/
theorem C9_no_packages (v : JVal) (hwf : wfV v = true) (hnp : rootNoPkg v = true) :
    get_dependencies (serializeV v) = some [] ∧ realMainExit (serializeV v) = some 0 := by
  have hscan := scan_serialize v hwf
  have hdeps : (extRun initState (eventsV v)).deps = [] := by
    cases v with
    | jstr s =>
        rw [eventsV, extRun_cons, tzone_str initState s rfl rfl, extRun_nil]
        rfl
    | atom s => rfl
    | obj fs =>
        rw [rootNoPkg] at hnp
        have hin : extRun initState (.EnterObj :: eventsF fs)
            = ⟨1, true, false, false, false, false, [], false⟩ := by
          rw [extRun_cons,
            show extStep initState .EnterObj
              = ⟨1, true, false, false, false, false, [], false⟩ from rfl]
          exact rootFieldsRun fs hnp
        rw [eventsV, extRun_append, hin]
        rfl
    | arr es =>
        have hin : extRun initState (.EnterList :: eventsE es)
            = ⟨1, false, false, false, false, false, [], false⟩ := by
          rw [extRun_cons,
            show extStep initState .EnterList
              = ⟨1, false, false, false, false, false, [], false⟩ from rfl]
          exact extNoopE es ⟨1, false, false, false, false, false, [], false⟩ rfl rfl
            (by decide) (Or.inl rfl)
        rw [eventsV, extRun_append, hin]
        rfl
  have hmain : get_dependencies (serializeV v) = some [] := by
    rw [get_dependencies_no_panic (serializeV v) (eventsV v) hscan, hdeps]
  exact ⟨hmain, realMainExit_of_some _ _ hmain⟩

/-- Witness for C9 on the scenario 3 document. -/
theorem C9_no_packages_witness :
    wfV (.obj (.fcons "other".toList (.atom "1".toList) .fnil)) = true
    ∧ rootNoPkg (.obj (.fcons "other".toList (.atom "1".toList) .fnil)) = true
    ∧ serializeV (.obj (.fcons "other".toList (.atom "1".toList) .fnil))
        = "\x7b\"other\":1\x7d".toList
    ∧ get_dependencies (serializeV (.obj (.fcons "other".toList (.atom "1".toList) .fnil)))
        = some []
    ∧ realMainExit (serializeV (.obj (.fcons "other".toList (.atom "1".toList) .fnil)))
        = some 0 := by
  have h := C9_no_packages (.obj (.fcons "other".toList (.atom "1".toList) .fnil))
    (by decide) (by decide)
  exact ⟨by decide, by decide, by decide, h.1, h.2⟩

/-- C10: the scanner yields at most one event per input character, so
the event sequence is finite, and the extraction loop processes at
most that many events; the model of `get_dependencies` is a total
function, so extraction terminates on every input. -/
theorem C10_event_bound (l : List Char) :
    (scan l).1.length ≤ l.length
    ∧ consumedCount initState (scan l).1 ≤ l.length := by
  have h1 := scanGo_length .top l
  exact ⟨h1, le_trans (consumedCount_le (scan l).1 initState) h1⟩


end CargoSymbols
